import Mathlib

/-!
# Verification of the `roman` TLS certificate manager

A shallow embedding, in Lean 4, of the `mailgun/roman` certificate
lifecycle manager: the certificate codec (`certificateToBytes` /
`bytesToCertificate` in `roman.go`), the certificate manager state
machine (`getCertificateFromCache`, `putCertificateInCache`,
`deleteCertificateFromCache`, `renewCertificate`, `renewCertificates`,
`Start`), the ACME client pipeline (`CertificateForDomain`,
`getAuthorization`, `validateCertificateChain` in `acme/acme.go`), and
the Route53 DNS challenge delete path (`challenge/route53.go`).

External libraries (Go `encoding/pem`, `crypto/x509`, the AWS SDK and
the ACME wire client) are modelled as parameters: PEM framing is
modelled at block granularity (Go `pem.Encode` / `pem.Decode` are an
inverse pair on well-formed block streams), and DER marshalling /
parsing and chain verification are fields of an environment record,
constrained in theorems only by the round-trip laws the Go standard
library documents.

Go panics (nil-pointer dereference, out-of-range index, out-of-range
slice) are modelled as an explicit `crash` outcome, distinct from a
returned `error` value.
-/

/-- Byte strings (Go `[]byte`), at the granularity the claims need. -/
abbrev Bytes := List Nat

/-- One PEM block: Go `pem.Block`. `pem.Encode` appends one block to a
buffer and `pem.Decode` peels the first block off and returns the rest,
so a byte buffer made of PEM blocks is modelled as the list of its
blocks, in order. -/
structure PemBlock where
  type : String
  bytes : Bytes
deriving DecidableEq, Repr

/-- A byte buffer consisting of a sequence of PEM blocks. -/
abbrev Blob := List PemBlock

/-- A parsed X.509 certificate (Go `x509.Certificate`), reduced to the
field the manager inspects (`Leaf.NotAfter`); `time.Time` instants are
modelled as integers, `t.After u` being `t > u`. -/
structure X509Cert where
  notAfter : Int
deriving DecidableEq, Repr

/-- An RSA private key (Go `*rsa.PrivateKey`), abstract. -/
structure RSAKey where
  d : Nat
deriving DecidableEq, Repr

/-- Go `tls.Certificate`, as built by `roman`: the raw DER chain
(`Certificate`), the private key, and the parsed leaf (`Leaf`). -/
structure TLSCertificate where
  certificate : List Bytes
  privateKey : RSAKey
  leaf : X509Cert
deriving DecidableEq, Repr

/-- Result of running a Go function: a value, a returned `error`, or a
runtime panic (`crash`), which in Go aborts the caller as well. -/
inductive Outcome (ε α : Type) where
  | ok : α → Outcome ε α
  | err : ε → Outcome ε α
  | crash : String → Outcome ε α
deriving DecidableEq, Repr

/-- The external `crypto/x509` surface used by `roman`, kept abstract:
DER marshalling of PKCS#1 keys, parsing them back, parsing a
concatenation of DER certificates, and chain verification
(`leaf.Verify` against root and intermediate pools with a DNS-name
constraint). -/
structure X509Env where
  marshalPKCS1 : RSAKey → Bytes
  parsePKCS1 : Bytes → Except String RSAKey
  parseCertificates : Bytes → Except String (List X509Cert)
  verify : X509Cert → List X509Cert → List X509Cert → String → Except String Unit

/-- `certificateToBytes` (roman.go): PEM-encode the PKCS#1 private key
as an `RSA PRIVATE KEY` block, then each DER chain element as a
`CERTIFICATE` block, in chain order.  The Go version returns
`([]byte, error)` but its error branches are dead: `pem.Encode` into a
`bytes.Buffer` cannot fail, so the model is total. -/
def certificateToBytes (env : X509Env) (c : TLSCertificate) : Blob :=
  { type := "RSA PRIVATE KEY", bytes := env.marshalPKCS1 c.privateKey } ::
    c.certificate.map (fun d => { type := "CERTIFICATE", bytes := d })

/-- The chain-collection loop of `bytesToCertificate`: repeatedly
`pem.Decode` the remaining bytes, append `certificateBlock.Bytes`, and
stop when no bytes remain.  When `pem.Decode` finds no block it returns
a nil pointer and the Go code dereferences it: `crash`. -/
def decodeChainLoop : Blob → List Bytes → Outcome String (List Bytes)
  | [], _ => .crash "nil pointer dereference: pem.Decode returned no block"
  | b :: rest, acc =>
      if rest = [] then .ok (acc ++ [b.bytes])
      else decodeChainLoop rest (acc ++ [b.bytes])

/-- `bytesToCertificate` (roman.go): decode the first PEM block and
parse it as the PKCS#1 private key; loop over the remaining blocks
collecting DER chain elements; parse the concatenated DER to obtain the
`x509` chain; leaf is element 0.  A missing first block, a missing
block inside the loop, or an empty parsed chain dereferences nil /
indexes out of range in Go: `crash`.  Note the block types are never
checked. -/
def bytesToCertificate (env : X509Env) (blob : Blob) : Outcome String TLSCertificate :=
  match blob with
  | [] => .crash "nil pointer dereference: pem.Decode returned no block"
  | keyBlock :: rest =>
      match env.parsePKCS1 keyBlock.bytes with
      | .error e => .err e
      | .ok key =>
          match decodeChainLoop rest [] with
          | .crash m => .crash m
          | .err e => .err e
          | .ok chain =>
              match env.parseCertificates chain.flatten with
              | .error e => .err e
              | .ok x509Chain =>
                  match x509Chain.head? with
                  | none => .crash "index out of range: x509Chain[0] on empty chain"
                  | some leaf =>
                      .ok { certificate := chain, privateKey := key, leaf := leaf }

/-- A concrete instantiation of the external x509 surface, used to
evaluate the model on closed inputs: a key marshals to the singleton of
its abstract datum, and every DER byte parses to one certificate. -/
def toyEnv : X509Env where
  marshalPKCS1 := fun k => [k.d]
  parsePKCS1 := fun b =>
    match b with
    | [n] => .ok { d := n }
    | _ => .error "toy: malformed PKCS1 key"
  parseCertificates := fun b => .ok (b.map (fun n => { notAfter := (n : Int) }))
  verify := fun leaf roots _ _ =>
    if roots.contains { notAfter := leaf.notAfter + 1 } then .ok ()
    else .error "toy: verification failure"

/-! ## Certificate manager (roman.go) -/

/-- Errors at the cache layer: `autocert.ErrCacheMiss` is a sentinel
value compared with `==` in Go, every other error is carried as its
message. -/
inductive CacheErr where
  | cacheMiss : CacheErr
  | other : String → CacheErr
deriving DecidableEq, Repr

/-- A mutation applied to the durable cache, recorded in order. -/
inductive CacheOp where
  | put : String → Blob → CacheOp
  | del : String → CacheOp
deriving DecidableEq, Repr

/-- Association-list lookup keyed by hostname. -/
def lookupHost (h : String) : List (String × α) → Option α
  | [] => none
  | (k, v) :: rest => if k = h then some v else lookupHost h rest

/-- Association-list insert (map semantics: replaces any prior entry). -/
def insertHost (h : String) (v : α) (l : List (String × α)) : List (String × α) :=
  (h, v) :: l.filter (fun p => p.1 ≠ h)

/-- Association-list erase (Go `delete(m, h)`). -/
def eraseHost (h : String) (l : List (String × α)) : List (String × α) :=
  l.filter (fun p => p.1 ≠ h)

/-- Mutable state of a `CertificateManager` together with its durable
cache: the in-memory map (`memoryCache`; Go lazily initialises the nil
map, which is observationally an empty map), the durable cache contents
keyed by hostname, the ordered trace of durable-cache mutations, the
number of completed `ACMEClient.CertificateForDomain` invocations, and
the hosts `renewCertificate` has been entered for, in order. -/
structure MState where
  memoryCache : List (String × TLSCertificate)
  durable : List (String × Blob)
  durableOps : List CacheOp
  acmeCalls : Nat
  attempted : List String
deriving Repr

/-- The manager's configuration and external collaborators:
`clock.UtcNow()` (frozen for one call), `RenewBefore`, `KnownHosts`,
the ACME client's per-hostname result, and fault injection for the
durable cache (an injected non-miss `Get` error, a `Put` error, a
`Delete` error, each per hostname).  A `none` injection means the
operation acts on the durable store and succeeds. -/
structure World where
  env : X509Env
  now : Int
  renewBefore : Int
  knownHosts : List String
  acme : String → Except String TLSCertificate
  cacheGetErr : String → Option String
  cachePutErr : String → Option String
  cacheDeleteErr : String → Option String

/-- `needToRenew` (roman.go): `clock.UtcNow().Add(renewBefore).After(notAfter)`. -/
def needToRenew (w : World) (notAfter : Int) : Bool :=
  w.now + w.renewBefore > notAfter

/-- `getCertificateFromCache` (roman.go): return the in-memory entry if
present; otherwise query the durable cache (miss propagates as
`ErrCacheMiss`), decode the bytes, install the result in the in-memory
map and return it. -/
def getCertificateFromCache (w : World) (s : MState) (h : String) :
    Outcome CacheErr TLSCertificate × MState :=
  match lookupHost h s.memoryCache with
  | some c => (.ok c, s)
  | none =>
      match w.cacheGetErr h with
      | some e => (.err (.other e), s)
      | none =>
          match lookupHost h s.durable with
          | none => (.err .cacheMiss, s)
          | some blob =>
              match bytesToCertificate w.env blob with
              | .crash m => (.crash m, s)
              | .err e => (.err (.other e), s)
              | .ok c =>
                  (.ok c, { s with memoryCache := insertHost h c s.memoryCache })

/-- `putCertificateInCache` (roman.go): install into the in-memory map
FIRST, then encode and write to the durable cache; a durable `Put`
failure is returned after the in-memory map was already updated. -/
def putCertificateInCache (w : World) (s : MState) (h : String) (c : TLSCertificate) :
    Outcome CacheErr Unit × MState :=
  let s1 := { s with memoryCache := insertHost h c s.memoryCache }
  let blob := certificateToBytes w.env c
  match w.cachePutErr h with
  | some e => (.err (.other e), s1)
  | none =>
      (.ok (), { s1 with durable := insertHost h blob s1.durable,
                         durableOps := s1.durableOps ++ [.put h blob] })

/-- `deleteCertificateFromCache` (roman.go): remove from the in-memory
map, then delete from the durable cache. -/
def deleteCertificateFromCache (w : World) (s : MState) (h : String) :
    Outcome CacheErr Unit × MState :=
  let s1 := { s with memoryCache := eraseHost h s.memoryCache }
  match w.cacheDeleteErr h with
  | some e => (.err (.other e), s1)
  | none =>
      (.ok (), { s1 with durable := eraseHost h s1.durable,
                         durableOps := s1.durableOps ++ [.del h] })

/-- Render a cache error the way Go interpolates it into `fmt.Errorf`. -/
def CacheErr.msg : CacheErr → String
  | .cacheMiss => "acme/autocert: certificate cache miss"
  | .other m => m

/-- The acquisition tail of `renewCertificate` (roman.go): call
`ACMEClient.CertificateForDomain` under the single-flight group (one
sequential caller here, so the call happens and its result is used),
then delete the old cache entry, then put the new certificate; each
failure is wrapped with the hostname. -/
def renewAcquire (w : World) (s : MState) (h : String) : Outcome CacheErr Unit × MState :=
  let s1 := { s with acmeCalls := s.acmeCalls + 1 }
  match w.acme h with
  | .error e =>
      (.err (.other ("unable to request certificate for hostname \x22" ++ h ++ "\x22: " ++ e)), s1)
  | .ok cert =>
      match deleteCertificateFromCache w s1 h with
      | (.crash m, s2) => (.crash m, s2)
      | (.err e, s2) =>
          (.err (.other ("unable to delete certificate from cache for \x22" ++ h ++ "\x22: " ++ e.msg)), s2)
      | (.ok _, s2) =>
          match putCertificateInCache w s2 h cert with
          | (.crash m, s3) => (.crash m, s3)
          | (.err e, s3) =>
              (.err (.other ("unable to put certificate in cache for \x22" ++ h ++ "\x22: " ++ e.msg)), s3)
          | (.ok _, s3) => (.ok (), s3)

/-- `renewCertificate` (roman.go): read the current bundle from the
cache; a non-miss error returns immediately; a hit that is not yet due
for renewal returns success; otherwise acquire a new certificate from
the ACME server and replace the cache entry. -/
def renewCertificate (w : World) (s : MState) (h : String) : Outcome CacheErr Unit × MState :=
  let s0 := { s with attempted := s.attempted ++ [h] }
  match getCertificateFromCache w s0 h with
  | (.crash m, s1) => (.crash m, s1)
  | (.err e, s1) =>
      if e = CacheErr.cacheMiss then renewAcquire w s1 h else (.err e, s1)
  | (.ok c, s1) =>
      if needToRenew w c.leaf.notAfter then renewAcquire w s1 h else (.ok (), s1)

/-- `renewCertificates` (roman.go): loop over the known hosts in
declaration order, collecting every per-host error; a Go panic aborts
the loop. -/
def renewCertificatesAux (w : World) : List String → MState → Outcome CacheErr (List CacheErr) × MState
  | [], s => (.ok [], s)
  | h :: rest, s =>
      match renewCertificate w s h with
      | (.crash m, s1) => (.crash m, s1)
      | (.ok _, s1) => renewCertificatesAux w rest s1
      | (.err e, s1) =>
          match renewCertificatesAux w rest s1 with
          | (.ok errs, s2) => (.ok (e :: errs), s2)
          | (r, s2) => (r, s2)

/-- `renewCertificates` applied to the manager's `KnownHosts`. -/
def renewCertificates (w : World) (s : MState) : Outcome CacheErr (List CacheErr) × MState :=
  renewCertificatesAux w w.knownHosts s

/-- `Start` (roman.go): run `renewCertificates` synchronously; if any
host failed, return one aggregated error and do NOT launch the
background loop; otherwise launch `renewCertificatesForever` (recorded
as the boolean) and return nil. -/
def start (w : World) (s : MState) : Outcome CacheErr Unit × Bool × MState :=
  match renewCertificates w s with
  | (.crash m, s1) => (.crash m, false, s1)
  | (.err e, s1) => (.err e, false, s1)
  | (.ok errs, s1) =>
      if errs = [] then (.ok (), true, s1)
      else
        (.err (.other ("unable to start due to the following errors: " ++
          String.intercalate "; " (errs.map CacheErr.msg))), false, s1)

/-! ## ACME client (acme/acme.go) -/

/-- External outcomes of one `CertificateForDomain` run: the result of
account registration (`createClient`), of `Authorize` (on success, the
authorization's `Status` string), of `ChallengePerformer.Perform`, and
of the CSR submission tail (`requestCertificate`). -/
structure AcmeWorld where
  registerResult : Except String Unit
  authorizeResult : Except String String
  challengeResult : Except String Unit
  certResult : Except String TLSCertificate

/-- Which pipeline steps actually ran during `CertificateForDomain`. -/
structure AcmeTrace where
  challengeInvoked : Bool
  csrInvoked : Bool
deriving DecidableEq, Repr

/-- `getAuthorization` (acme/acme.go): call `Authorize`, then switch on
`authorization.Status`.  In Go, switch cases do not fall through: the
`StatusValid`, `StatusInvalid`, `StatusRevoked` and `StatusUnknown`
cases have EMPTY bodies, so control falls past the switch to the final
`return authorization, nil`; only `StatusProcessing` and the `default`
case return an error. -/
def getAuthorization (aw : AcmeWorld) : Except String String :=
  match aw.authorizeResult with
  | .error e => .error e
  | .ok status =>
      if status = "valid" then .ok status
      else if status = "pending" then .ok status
      else if status = "processing" then
        .error "certificate authorization already in progress"
      else if status = "invalid" then .ok status
      else if status = "revoked" then .ok status
      else if status = "unknown" then .ok status
      else .error ("invalid certificate authorization status: " ++ status)

/-- `Client.CertificateForDomain` (acme/acme.go): create a disposable
account, get the authorization, perform the challenge (unconditionally,
whatever the authorization status was), then request the certificate.
The returned trace records which steps ran. -/
def certificateForDomain (aw : AcmeWorld) : Except String TLSCertificate × AcmeTrace :=
  match aw.registerResult with
  | .error e => (.error e, { challengeInvoked := false, csrInvoked := false })
  | .ok _ =>
      match getAuthorization aw with
      | .error e => (.error e, { challengeInvoked := false, csrInvoked := false })
      | .ok _ =>
          match aw.challengeResult with
          | .error e => (.error e, { challengeInvoked := true, csrInvoked := false })
          | .ok _ => (aw.certResult, { challengeInvoked := true, csrInvoked := true })

/-- `validateCertificateChain` (acme/acme.go): parse the concatenated
DER chain; fail when the chain holds fewer than 2 certificates; build a
root pool holding only the LAST parsed certificate, an intermediate
pool holding `x509Chain[1 : len(x509Chain)-2]` when the raw chain has
more than 2 elements (a Go slice whose bounds panic when the parsed
chain is shorter than 3), and verify `x509Chain[0]` against them with
the domain name as DNS constraint. -/
def validateCertificateChain (env : X509Env) (domainName : String)
    (certificateChain : List Bytes) : Outcome String Unit :=
  match env.parseCertificates certificateChain.flatten with
  | .error e => .err e
  | .ok x509Chain =>
      if certificateChain.length < 2 then
        .err ("not enough certificates in chain: " ++ toString certificateChain.length)
      else
        match x509Chain.getLast? with
        | none => .crash "index out of range: x509Chain is empty"
        | some root =>
            match x509Chain.head? with
            | none => .crash "index out of range: x509Chain is empty"
            | some leaf =>
                if certificateChain.length > 2 then
                  if x509Chain.length < 3 then
                    .crash "slice bounds out of range: x509Chain[1:len-2]"
                  else
                    match env.verify leaf [root]
                        ((x509Chain.drop 1).take (x509Chain.length - 3)) domainName with
                    | .error e => .err ("unable to verify certificates chain: " ++ e)
                    | .ok _ => .ok ()
                else
                  match env.verify leaf [root] [] domainName with
                  | .error e => .err ("unable to verify certificates chain: " ++ e)
                  | .ok _ => .ok ()

/-! ## Route53 DNS challenge (challenge/route53.go) -/

/-- `sub` occurs as a contiguous substring of `l` (Go
`strings.Contains`). -/
def hasInfix (l sub : List Char) : Bool :=
  l.tails.any (fun t => sub.isPrefixOf t)

/-- Go `strings.Contains(s, sub)`. -/
def strContains (s sub : String) : Bool :=
  hasInfix s.toList sub.toList

/-- The `WaitForSync` polling loop shared by `Upsert` and `Delete`:
poll `GetChange` (the list holds the successive poll outcomes before
the 30-minute timeout fires); a poll error propagates; status `INSYNC`
succeeds; exhausting the polls is the timeout. -/
def changeSyncLoop : List (Except String String) → Except String Unit
  | [] => .error "timed out waiting for DNS to sync"
  | r :: rest =>
      match r with
      | .error e => .error e
      | .ok status => if status = "INSYNC" then .ok () else changeSyncLoop rest

/-- `route53Client.Delete` (challenge/route53.go): issue the DELETE
change batch; when the provider returns an error containing
"not found", return success; any other provider error propagates;
on provider success, optionally wait for the change to sync. -/
def route53Delete (changeResult : Except String Unit) (waitForSync : Bool)
    (polls : List (Except String String)) : Except String Unit :=
  match changeResult with
  | .error e => if strContains e "not found" then .ok () else .error e
  | .ok _ => if waitForSync then changeSyncLoop polls else .ok ()


/-! ## Concrete instances used to evaluate the model on closed inputs -/

/-- The bundle used to evaluate the codec theorems on closed input. -/
def bundleEx : TLSCertificate where
  certificate := [[5], [6]]
  privateKey := { d := 3 }
  leaf := { notAfter := 5 }

/-- An ACME run whose registration, challenge and CSR steps all
succeed and whose `Authorize` call returns status `st`: what
`CertificateForDomain` then does depends only on the status switch. -/
def awStatus (st : String) : AcmeWorld where
  registerResult := .ok ()
  authorizeResult := .ok st
  challengeResult := .ok ()
  certResult := .ok bundleEx

/-- A world whose durable cache rejects every `Put` with a disk error;
everything else is benign. -/
def wPutFail : World where
  env := toyEnv
  now := 0
  renewBefore := 0
  knownHosts := []
  acme := fun _ => .error "unused"
  cacheGetErr := fun _ => none
  cachePutErr := fun _ => some "disk full"
  cacheDeleteErr := fun _ => none

/-- The empty manager state. -/
def emptyMState : MState where
  memoryCache := []
  durable := []
  durableOps := []
  acmeCalls := 0
  attempted := []

/-- A long-lived bundle (expires at instant 100). -/
def bundle100 : TLSCertificate where
  certificate := [[100], [6]]
  privateKey := { d := 3 }
  leaf := { notAfter := 100 }

/-- A world whose ACME client must not be reached: it only errors. -/
def wSkip : World where
  env := toyEnv
  now := 0
  renewBefore := 10
  knownHosts := ["foo.example.com"]
  acme := fun _ => .error "ACME must not be called"
  cacheGetErr := fun _ => none
  cachePutErr := fun _ => none
  cacheDeleteErr := fun _ => none

/-- A state whose in-memory map already holds `bundle100` for the
known host. -/
def sSkip : MState where
  memoryCache := [("foo.example.com", bundle100)]
  durable := []
  durableOps := []
  acmeCalls := 0
  attempted := []

/-- A world whose ACME client issues `bundleEx` for every hostname. -/
def wRenew : World where
  env := toyEnv
  now := 0
  renewBefore := 10
  knownHosts := ["foo.example.com"]
  acme := fun _ => .ok bundleEx
  cacheGetErr := fun _ => none
  cachePutErr := fun _ => none
  cacheDeleteErr := fun _ => none

/-- Renewal succeeded for every host of the list, processed in order
(the per-host success predicate `Start` aggregates). -/
def allRenewOk (w : World) : List String → MState → Prop
  | [], _ => True
  | h :: rest, s =>
      (renewCertificate w s h).1 = .ok () ∧
      allRenewOk w rest (renewCertificate w s h).2

/-! ## Helper lemmas -/

theorem lookupHost_insert_self (h : String) (v : α) (l : List (String × α)) :
    lookupHost h (insertHost h v l) = some v := by
  simp [lookupHost, insertHost]

theorem lookupHost_filter_ne (h : String) (l : List (String × α)) :
    lookupHost h (l.filter (fun p => p.1 ≠ h)) = none := by
  induction l with
  | nil => rfl
  | cons p rest ih =>
      obtain ⟨k, v⟩ := p
      rw [List.filter_cons]
      by_cases hp : k = h
      · rw [if_neg (by simp [hp])]
        exact ih
      · rw [if_pos (by simp [hp])]
        rw [lookupHost, if_neg hp]
        exact ih

theorem lookupHost_erase_self (h : String) (l : List (String × α)) :
    lookupHost h (eraseHost h l) = none :=
  lookupHost_filter_ne h l

theorem decodeChainLoop_map (l : List Bytes) (acc : List Bytes) (hne : l ≠ []) :
    decodeChainLoop (l.map (fun d => { type := "CERTIFICATE", bytes := d })) acc =
      .ok (acc ++ l) := by
  induction l generalizing acc with
  | nil => exact absurd rfl hne
  | cons d rest ih =>
      cases rest with
      | nil => simp [decodeChainLoop]
      | cons d2 t =>
          have hres := ih (acc ++ [d]) (by simp)
          simp only [List.map_cons] at hres ⊢
          rw [decodeChainLoop]
          simp only [List.map_eq_nil_iff]
          rw [if_neg (by simp)]
          rw [hres]
          simp

/-! ## Claim theorems -/

/-- C3: decoding the bytes produced by encoding a bundle yields the
bundle back (byte-exact chain in order, same key, same leaf), and
encode is a left inverse of decode on encoder-produced byte strings.
Hypotheses: the bundle satisfies the data-model invariant (non-empty
chain, leaf = parse of the chain), and the external DER codec obeys the
round-trip laws the Go standard library documents. -/
theorem codec_roundtrip (env : X509Env) (b : TLSCertificate) (xs : List X509Cert)
    (hne : b.certificate ≠ [])
    (hkey : env.parsePKCS1 (env.marshalPKCS1 b.privateKey) = .ok b.privateKey)
    (hparse : env.parseCertificates b.certificate.flatten = .ok xs)
    (hleaf : xs.head? = some b.leaf) :
    bytesToCertificate env (certificateToBytes env b) = .ok b ∧
    ∀ x, x = certificateToBytes env b →
      ∃ c, bytesToCertificate env x = .ok c ∧ certificateToBytes env c = x := by
  have hmain : bytesToCertificate env (certificateToBytes env b) = .ok b := by
    rw [certificateToBytes, bytesToCertificate]
    simp only [hkey, decodeChainLoop_map _ _ hne, List.nil_append, hparse, hleaf]
  refine ⟨hmain, ?_⟩
  intro x hx
  subst hx
  exact ⟨b, hmain, rfl⟩

/-- Witness for C3 at a concrete bundle under the concrete toy codec. -/
theorem codec_roundtrip_witness :
    bytesToCertificate toyEnv (certificateToBytes toyEnv bundleEx) = .ok bundleEx ∧
    ∀ x, x = certificateToBytes toyEnv bundleEx →
      ∃ c, bytesToCertificate toyEnv x = .ok c ∧ certificateToBytes toyEnv c = x :=
  codec_roundtrip toyEnv bundleEx [{ notAfter := 5 }, { notAfter := 6 }]
    (by decide) rfl rfl rfl

/-- C6: `bytesToCertificate` is NOT total at its interface: on a byte
string containing no valid PEM block at all (for example the empty
string), `pem.Decode` returns a nil block and the code dereferences
`privateKeyBlock.Bytes`, a panic, not a returned error; likewise when
the bytes after the key block contain no further PEM block. -/
theorem bytesToCertificate_crash_no_pem :
    bytesToCertificate toyEnv [] =
      .crash "nil pointer dereference: pem.Decode returned no block" ∧
    bytesToCertificate toyEnv [{ type := "RSA PRIVATE KEY", bytes := [3] }] =
      .crash "nil pointer dereference: pem.Decode returned no block" :=
  ⟨rfl, rfl⟩

/-- C1: contrary to the claim, authorization statuses `invalid`,
`revoked` and `unknown` are ACCEPTED by `getAuthorization` (their Go
switch cases have empty bodies and control falls past the switch to
`return authorization, nil`), and `CertificateForDomain` then proceeds
to the challenge and CSR steps; only an unrecognized status reaches
the `default` case and fails with the status included. -/
theorem getAuthorization_bad_status_accepted :
    getAuthorization (awStatus "invalid") = .ok "invalid" ∧
    getAuthorization (awStatus "revoked") = .ok "revoked" ∧
    getAuthorization (awStatus "unknown") = .ok "unknown" ∧
    (certificateForDomain (awStatus "invalid")).2.challengeInvoked = true ∧
    (certificateForDomain (awStatus "invalid")).2.csrInvoked = true ∧
    getAuthorization (awStatus "bogus") =
      .error "invalid certificate authorization status: bogus" := by
  refine ⟨?_, ?_, ?_, ?_, ?_, ?_⟩ <;> rfl

/-- C2: contrary to the claim, a `valid` authorization does NOT skip
the challenge: `getAuthorization` returns it like a pending one and
`CertificateForDomain` invokes the challenge performer
unconditionally. -/
theorem certificateForDomain_valid_invokes_challenge :
    getAuthorization (awStatus "valid") = .ok "valid" ∧
    (certificateForDomain (awStatus "valid")).2.challengeInvoked = true := by
  refine ⟨?_, ?_⟩ <;> rfl

/-- C10: `putCertificateInCache` installs the bundle in the in-memory
map BEFORE writing to the durable cache, so when the durable `Put`
fails the call returns the error while the in-memory map already holds
the new bundle and the durable cache is unchanged: the two layers
disagree. -/
theorem putCertificateInCache_nonatomic (w : World) (s : MState) (h : String)
    (c : TLSCertificate) (e : String) (hput : w.cachePutErr h = some e) :
    (putCertificateInCache w s h c).1 = .err (.other e) ∧
    lookupHost h (putCertificateInCache w s h c).2.memoryCache = some c ∧
    (putCertificateInCache w s h c).2.durable = s.durable := by
  refine ⟨?_, ?_, ?_⟩ <;>
    simp [putCertificateInCache, hput, lookupHost_insert_self]

/-- Witness for C10 at a concrete failing `Put`. -/
theorem putCertificateInCache_nonatomic_witness :
    (putCertificateInCache wPutFail emptyMState "foo.example.com" bundleEx).1 =
      .err (.other "disk full") ∧
    lookupHost "foo.example.com"
      (putCertificateInCache wPutFail emptyMState "foo.example.com" bundleEx).2.memoryCache =
      some bundleEx ∧
    (putCertificateInCache wPutFail emptyMState "foo.example.com" bundleEx).2.durable =
      emptyMState.durable :=
  putCertificateInCache_nonatomic wPutFail emptyMState "foo.example.com" bundleEx "disk full" rfl

/-- C4: when the cache holds a bundle for `h` (in memory, or on disk
decoding successfully) that is not yet due for renewal
(`now + renewBefore ≤ notAfter`), `renewCertificate h` returns success,
never invokes the ACME client, leaves the durable cache untouched, and
a subsequent cache read still returns the same bundle. -/
theorem renewCertificate_skips_when_not_due (w : World) (s : MState) (h : String)
    (c : TLSCertificate)
    (hfound : lookupHost h s.memoryCache = some c ∨
      (lookupHost h s.memoryCache = none ∧ w.cacheGetErr h = none ∧
       ∃ blob, lookupHost h s.durable = some blob ∧
         bytesToCertificate w.env blob = .ok c))
    (hnotdue : w.now + w.renewBefore ≤ c.leaf.notAfter) :
    (renewCertificate w s h).1 = .ok () ∧
    (renewCertificate w s h).2.acmeCalls = s.acmeCalls ∧
    (renewCertificate w s h).2.durable = s.durable ∧
    (renewCertificate w s h).2.durableOps = s.durableOps ∧
    (getCertificateFromCache w (renewCertificate w s h).2 h).1 = .ok c := by
  have hnr : needToRenew w c.leaf.notAfter = false := by
    simp only [needToRenew, decide_eq_false_iff_not, not_lt]
    exact hnotdue
  rcases hfound with hmem | ⟨hmem, hget, blob, hdur, hdec⟩
  · have hR : renewCertificate w s h =
        (.ok (), { s with attempted := s.attempted ++ [h] }) := by
      rw [renewCertificate, getCertificateFromCache]
      simp [hmem, hnr]
    rw [hR]
    refine ⟨rfl, rfl, rfl, rfl, ?_⟩
    rw [getCertificateFromCache]
    simp [hmem]
  · have hR : renewCertificate w s h =
        (.ok (), { s with memoryCache := insertHost h c s.memoryCache,
                          attempted := s.attempted ++ [h] }) := by
      rw [renewCertificate, getCertificateFromCache]
      simp [hmem, hget, hdur, hdec, hnr]
    rw [hR]
    refine ⟨rfl, rfl, rfl, rfl, ?_⟩
    rw [getCertificateFromCache]
    simp [lookupHost_insert_self]

/-- C5: when the cached bundle for `h` is absent or due for renewal and
the ACME client succeeds (and the durable cache cooperates),
`renewCertificate h` succeeds, invokes the ACME client exactly once,
applies exactly a delete of the old durable entry followed by an
install of the new one (in that order), and a subsequent cache read
returns the newly acquired bundle. -/
theorem renewCertificate_renews_when_due (w : World) (s : MState) (h : String)
    (newC : TLSCertificate)
    (hdue : (lookupHost h s.memoryCache = none ∧ w.cacheGetErr h = none ∧
             lookupHost h s.durable = none) ∨
      ∃ c, w.now + w.renewBefore > c.leaf.notAfter ∧
        (lookupHost h s.memoryCache = some c ∨
         (lookupHost h s.memoryCache = none ∧ w.cacheGetErr h = none ∧
          ∃ blob, lookupHost h s.durable = some blob ∧
            bytesToCertificate w.env blob = .ok c)))
    (hacme : w.acme h = .ok newC)
    (hdel : w.cacheDeleteErr h = none)
    (hput : w.cachePutErr h = none) :
    (renewCertificate w s h).1 = .ok () ∧
    (renewCertificate w s h).2.acmeCalls = s.acmeCalls + 1 ∧
    (renewCertificate w s h).2.durableOps =
      s.durableOps ++ [.del h, .put h (certificateToBytes w.env newC)] ∧
    (getCertificateFromCache w (renewCertificate w s h).2 h).1 = .ok newC ∧
    lookupHost h (renewCertificate w s h).2.durable =
      some (certificateToBytes w.env newC) := by
  have hacq : ∀ s1 : MState,
      (renewAcquire w s1 h).1 = .ok () ∧
      (renewAcquire w s1 h).2.acmeCalls = s1.acmeCalls + 1 ∧
      (renewAcquire w s1 h).2.durableOps =
        s1.durableOps ++ [.del h, .put h (certificateToBytes w.env newC)] ∧
      lookupHost h (renewAcquire w s1 h).2.memoryCache = some newC ∧
      lookupHost h (renewAcquire w s1 h).2.durable =
        some (certificateToBytes w.env newC) := by
    intro s1
    refine ⟨?_, ?_, ?_, ?_, ?_⟩ <;>
      simp [renewAcquire, deleteCertificateFromCache, putCertificateInCache,
        hacme, hdel, hput, lookupHost_insert_self]
  rcases hdue with ⟨hmem, hget, hdur⟩ | ⟨c, hdue2, hmem | ⟨hmem, hget, blob, hdur, hdec⟩⟩
  · have hR : renewCertificate w s h =
        renewAcquire w { s with attempted := s.attempted ++ [h] } h := by
      rw [renewCertificate, getCertificateFromCache]
      simp [hmem, hget, hdur]
    obtain ⟨h1, h2, h3, h4, h5⟩ := hacq { s with attempted := s.attempted ++ [h] }
    rw [hR]
    refine ⟨h1, h2, by rw [h3], ?_, h5⟩
    rw [getCertificateFromCache, h4]
  · have hnr : needToRenew w c.leaf.notAfter = true := by
      simp only [needToRenew, decide_eq_true_eq]
      exact hdue2
    have hR : renewCertificate w s h =
        renewAcquire w { s with attempted := s.attempted ++ [h] } h := by
      rw [renewCertificate, getCertificateFromCache]
      simp [hmem, hnr]
    obtain ⟨h1, h2, h3, h4, h5⟩ := hacq { s with attempted := s.attempted ++ [h] }
    rw [hR]
    refine ⟨h1, h2, by rw [h3], ?_, h5⟩
    rw [getCertificateFromCache, h4]
  · have hnr : needToRenew w c.leaf.notAfter = true := by
      simp only [needToRenew, decide_eq_true_eq]
      exact hdue2
    have hR : renewCertificate w s h =
        renewAcquire w { s with memoryCache := insertHost h c s.memoryCache,
                                attempted := s.attempted ++ [h] } h := by
      rw [renewCertificate, getCertificateFromCache]
      simp [hmem, hget, hdur, hdec, hnr]
    obtain ⟨h1, h2, h3, h4, h5⟩ := hacq { s with memoryCache := insertHost h c s.memoryCache,
                                                  attempted := s.attempted ++ [h] }
    rw [hR]
    refine ⟨h1, h2, by rw [h3], ?_, h5⟩
    rw [getCertificateFromCache, h4]

/-- Witness for C4: with a cached bundle expiring at 100, clock 0 and
`renewBefore` 10, renewal is skipped. -/
theorem renewCertificate_skips_when_not_due_witness :
    (renewCertificate wSkip sSkip "foo.example.com").1 = .ok () ∧
    (renewCertificate wSkip sSkip "foo.example.com").2.acmeCalls = sSkip.acmeCalls ∧
    (renewCertificate wSkip sSkip "foo.example.com").2.durable = sSkip.durable ∧
    (renewCertificate wSkip sSkip "foo.example.com").2.durableOps = sSkip.durableOps ∧
    (getCertificateFromCache wSkip (renewCertificate wSkip sSkip "foo.example.com").2
      "foo.example.com").1 = .ok bundle100 :=
  renewCertificate_skips_when_not_due wSkip sSkip "foo.example.com" bundle100
    (Or.inl (by simp [lookupHost, sSkip])) (by decide)

/-- Witness for C5: with an empty cache, one renewal calls ACME once,
deletes then installs, and the new bundle is afterwards served. -/
theorem renewCertificate_renews_when_due_witness :
    (renewCertificate wRenew emptyMState "foo.example.com").1 = .ok () ∧
    (renewCertificate wRenew emptyMState "foo.example.com").2.acmeCalls =
      emptyMState.acmeCalls + 1 ∧
    (renewCertificate wRenew emptyMState "foo.example.com").2.durableOps =
      emptyMState.durableOps ++
        [.del "foo.example.com",
         .put "foo.example.com" (certificateToBytes wRenew.env bundleEx)] ∧
    (getCertificateFromCache wRenew
      (renewCertificate wRenew emptyMState "foo.example.com").2 "foo.example.com").1 =
      .ok bundleEx ∧
    lookupHost "foo.example.com"
      (renewCertificate wRenew emptyMState "foo.example.com").2.durable =
      some (certificateToBytes wRenew.env bundleEx) :=
  renewCertificate_renews_when_due wRenew emptyMState "foo.example.com" bundleEx
    (Or.inl ⟨rfl, rfl, rfl⟩) rfl rfl rfl

/-- C8: chain validation fails outright on chains with fewer than 2
certificates; otherwise it verifies leaf = chain[0] with the hostname
as DNS-name constraint against a trust pool holding only the LAST
chain certificate, with intermediates chain[1:len-2] when the chain
has at least 3 elements and none otherwise, and any verification
failure is a hard error.  Hypothesis: each DER chain element parses to
exactly one certificate (`xs` lists them in order). -/
theorem validateCertificateChain_spec (env : X509Env) (d : String)
    (chain : List Bytes) (xs : List X509Cert)
    (hp : env.parseCertificates chain.flatten = .ok xs)
    (hlen : xs.length = chain.length) :
    (chain.length < 2 →
      validateCertificateChain env d chain =
        .err ("not enough certificates in chain: " ++ toString chain.length)) ∧
    (2 ≤ chain.length → ∃ leaf root,
      xs.head? = some leaf ∧ xs.getLast? = some root ∧
      validateCertificateChain env d chain =
        match env.verify leaf [root]
            (if 2 < chain.length then (xs.drop 1).take (xs.length - 3) else []) d with
        | .ok _ => .ok ()
        | .error e => .err ("unable to verify certificates chain: " ++ e)) := by
  constructor
  · intro hlt
    rw [validateCertificateChain, hp]
    simp [hlt]
  · intro hge
    have hxs : xs ≠ [] := by
      intro hnil
      rw [hnil] at hlen
      simp at hlen
      omega
    obtain ⟨leaf, hleaf⟩ : ∃ leaf, xs.head? = some leaf := by
      cases xs with
      | nil => exact absurd rfl hxs
      | cons a t => exact ⟨a, rfl⟩
    obtain ⟨root, hroot⟩ : ∃ root, xs.getLast? = some root :=
      Option.isSome_iff_exists.mp (List.getLast?_isSome.mpr hxs)
    refine ⟨leaf, root, hleaf, hroot, ?_⟩
    rw [validateCertificateChain, hp]
    have hnlt : ¬ chain.length < 2 := by omega
    by_cases h3 : 2 < chain.length
    · have hx3 : ¬ xs.length < 3 := by omega
      simp [hnlt, h3, hroot, hleaf, hx3]
      cases henv : env.verify leaf [root] (xs.tail.take (xs.length - 3)) d <;>
        simp [henv]
    · simp [hnlt, h3, hroot, hleaf]
      cases henv : env.verify leaf [root] [] d <;> simp [henv]

/-- Witness for C8: a concrete 3-element chain under the toy codec,
where the toy verifier accepts (the root is the leaf's issuer in the
toy model). -/
theorem validateCertificateChain_spec_witness :
    toyEnv.parseCertificates ([[1], [2], [2]] : List Bytes).flatten =
      .ok [{ notAfter := 1 }, { notAfter := 2 }, { notAfter := 2 }] ∧
    (([[1], [2], [2]] : List Bytes).length < 2 →
      validateCertificateChain toyEnv "host.example.com" [[1], [2], [2]] =
        .err ("not enough certificates in chain: " ++
          toString ([[1], [2], [2]] : List Bytes).length)) ∧
    (2 ≤ ([[1], [2], [2]] : List Bytes).length → ∃ leaf root,
      ([{ notAfter := 1 }, { notAfter := 2 }, { notAfter := 2 }] :
        List X509Cert).head? = some leaf ∧
      ([{ notAfter := 1 }, { notAfter := 2 }, { notAfter := 2 }] :
        List X509Cert).getLast? = some root ∧
      validateCertificateChain toyEnv "host.example.com" [[1], [2], [2]] =
        match toyEnv.verify leaf [root]
            (if 2 < ([[1], [2], [2]] : List Bytes).length then
              (([{ notAfter := 1 }, { notAfter := 2 }, { notAfter := 2 }] :
                List X509Cert).drop 1).take
                (([{ notAfter := 1 }, { notAfter := 2 }, { notAfter := 2 }] :
                  List X509Cert).length - 3)
            else []) "host.example.com" with
        | .ok _ => .ok ()
        | .error e => .err ("unable to verify certificates chain: " ++ e)) :=
  ⟨rfl, validateCertificateChain_spec toyEnv "host.example.com" [[1], [2], [2]]
    [{ notAfter := 1 }, { notAfter := 2 }, { notAfter := 2 }] rfl rfl⟩

/-- C9: a Route53 TXT delete whose provider error message contains
"not found" is treated as success (the record is already gone); any
other provider error is returned to the caller. -/
theorem route53Delete_notfound (e : String) (wfs : Bool)
    (polls : List (Except String String)) :
    (strContains e "not found" = true →
      route53Delete (.error e) wfs polls = .ok ()) ∧
    (strContains e "not found" = false →
      route53Delete (.error e) wfs polls = .error e) := by
  constructor
  · intro hc
    simp [route53Delete, hc]
  · intro hc
    simp [route53Delete, hc]

/-- Witness for C9: one provider error containing "not found" is
swallowed, one without it propagates. -/
theorem route53Delete_notfound_witness :
    strContains "InvalidChangeBatch: the record was not found" "not found" = true ∧
    route53Delete (.error "InvalidChangeBatch: the record was not found") false [] =
      .ok () ∧
    strContains "AccessDenied: no permission" "not found" = false ∧
    route53Delete (.error "AccessDenied: no permission") false [] =
      .error "AccessDenied: no permission" :=
  ⟨by decide,
   (route53Delete_notfound "InvalidChangeBatch: the record was not found" false []).1
     (by decide),
   by decide,
   (route53Delete_notfound "AccessDenied: no permission" false []).2 (by decide)⟩

theorem getCertificateFromCache_attempted (w : World) (s : MState) (h : String) :
    (getCertificateFromCache w s h).2.attempted = s.attempted := by
  rw [getCertificateFromCache]
  repeat' split
  all_goals rfl

theorem deleteCertificateFromCache_attempted (w : World) (s : MState) (h : String) :
    (deleteCertificateFromCache w s h).2.attempted = s.attempted := by
  rw [deleteCertificateFromCache]
  repeat' split
  all_goals rfl

theorem putCertificateInCache_attempted (w : World) (s : MState) (h : String)
    (c : TLSCertificate) :
    (putCertificateInCache w s h c).2.attempted = s.attempted := by
  rw [putCertificateInCache]
  repeat' split
  all_goals rfl



theorem renewAcquire_attempted (w : World) (s : MState) (h : String) :
    (renewAcquire w s h).2.attempted = s.attempted := by
  rcases hA : w.acme h with e | cert
  · simp [renewAcquire, hA]
  · rcases hD : deleteCertificateFromCache w { s with acmeCalls := s.acmeCalls + 1 } h
      with ⟨rd, s2⟩
    have hd : s2.attempted = s.attempted := by
      have := deleteCertificateFromCache_attempted w { s with acmeCalls := s.acmeCalls + 1 } h
      rw [hD] at this
      exact this
    cases rd with
    | crash m =>
        simp only [renewAcquire, hA, hD]
        exact hd
    | err e =>
        simp only [renewAcquire, hA, hD]
        exact hd
    | ok u =>
        rcases hP : putCertificateInCache w s2 h cert with ⟨rp, s3⟩
        have hp : s3.attempted = s2.attempted := by
          have := putCertificateInCache_attempted w s2 h cert
          rw [hP] at this
          exact this
        cases rp with
        | crash m =>
            simp only [renewAcquire, hA, hD, hP]
            exact hp.trans hd
        | err e =>
            simp only [renewAcquire, hA, hD, hP]
            exact hp.trans hd
        | ok u2 =>
            simp only [renewAcquire, hA, hD, hP]
            exact hp.trans hd

theorem renewCertificate_attempted (w : World) (s : MState) (h : String) :
    (renewCertificate w s h).2.attempted = s.attempted ++ [h] := by
  simp only [renewCertificate]
  rcases hE : getCertificateFromCache w { s with attempted := s.attempted ++ [h] } h
    with ⟨r, s1⟩
  have hg : s1.attempted = s.attempted ++ [h] := by
    have := getCertificateFromCache_attempted w { s with attempted := s.attempted ++ [h] } h
    rw [hE] at this
    exact this
  cases r with
  | crash m => exact hg
  | err e =>
      show (if e = CacheErr.cacheMiss then renewAcquire w s1 h
        else (Outcome.err e, s1)).2.attempted = s.attempted ++ [h]
      by_cases he : e = CacheErr.cacheMiss
      · rw [if_pos he]
        exact (renewAcquire_attempted w s1 h).trans hg
      · rw [if_neg he]
        exact hg
  | ok c =>
      show (if needToRenew w c.leaf.notAfter = true then renewAcquire w s1 h
        else (Outcome.ok (), s1)).2.attempted = s.attempted ++ [h]
      by_cases hn : needToRenew w c.leaf.notAfter = true
      · rw [if_pos hn]
        exact (renewAcquire_attempted w s1 h).trans hg
      · rw [if_neg hn]
        exact hg

theorem renewCertificatesAux_attempted (w : World) (l : List String) (s : MState)
    (errs : List CacheErr) (hok : (renewCertificatesAux w l s).1 = .ok errs) :
    (renewCertificatesAux w l s).2.attempted = s.attempted ++ l := by
  induction l generalizing s errs with
  | nil => simp [renewCertificatesAux]
  | cons h t ih =>
      rw [renewCertificatesAux] at hok ⊢
      rcases hR : renewCertificate w s h with ⟨r, s1⟩
      rw [hR] at hok
      have hra : s1.attempted = s.attempted ++ [h] := by
        have := renewCertificate_attempted w s h
        rw [hR] at this
        exact this
      cases r with
      | crash m => simp at hok
      | ok u =>
          have hok2 : (renewCertificatesAux w t s1).1 = .ok errs := hok
          show (renewCertificatesAux w t s1).2.attempted = s.attempted ++ h :: t
          rw [ih s1 errs hok2, hra]
          simp
      | err e =>
          have hok2 : (match renewCertificatesAux w t s1 with
            | (.ok errs2, s2) => (Outcome.ok (e :: errs2), s2)
            | (r2, s2) => (r2, s2)).1 = Outcome.ok errs := hok
          show (match renewCertificatesAux w t s1 with
            | (.ok errs2, s2) => (Outcome.ok (e :: errs2), s2)
            | (r2, s2) => (r2, s2)).2.attempted = s.attempted ++ h :: t
          rcases hT : renewCertificatesAux w t s1 with ⟨rt, s2⟩
          rw [hT] at hok2
          cases rt with
          | crash m => simp at hok2
          | err e2 => simp at hok2
          | ok errs2 =>
              have h2 : s2.attempted = s1.attempted ++ t := by
                have := ih s1 errs2 (by rw [hT])
                rw [hT] at this
                exact this
              show s2.attempted = s.attempted ++ h :: t
              rw [h2, hra]
              simp

theorem renewCertificatesAux_ok_iff (w : World) (l : List String) (s : MState)
    (errs : List CacheErr) (hok : (renewCertificatesAux w l s).1 = .ok errs) :
    (errs = [] ↔ allRenewOk w l s) := by
  induction l generalizing s errs with
  | nil =>
      simp [renewCertificatesAux] at hok
      subst hok
      simp [allRenewOk]
  | cons h t ih =>
      rw [renewCertificatesAux] at hok
      rw [allRenewOk]
      rcases hR : renewCertificate w s h with ⟨r, s1⟩
      rw [hR] at hok
      cases r with
      | crash m => simp at hok
      | ok u =>
          have hok2 : (renewCertificatesAux w t s1).1 = .ok errs := hok
          have hiff := ih s1 errs hok2
          cases u
          simp [hiff]
      | err e =>
          have hok2 : (match renewCertificatesAux w t s1 with
            | (.ok errs2, s2) => (Outcome.ok (e :: errs2), s2)
            | (r2, s2) => (r2, s2)).1 = Outcome.ok errs := hok
          rcases hT : renewCertificatesAux w t s1 with ⟨rt, s2⟩
          rw [hT] at hok2
          cases rt with
          | crash m => simp at hok2
          | err e2 => simp at hok2
          | ok errs2 =>
              simp at hok2
              constructor
              · intro habs
                rw [habs] at hok2
                simp at hok2
              · intro habs
                exact absurd habs.1 (by simp)

/-- C7: `Start` runs the renewal pass synchronously: when the pass
completes normally (no panic), every known host has had its renewal
attempt before `Start` returns, the result is nil exactly when every
per-host renewal succeeded (otherwise one error aggregating the
per-host failures), and the background renewal task is launched exactly
when the result is nil. -/
theorem start_spec (w : World) (s : MState) (errs : List CacheErr)
    (hok : (renewCertificates w s).1 = .ok errs) :
    (start w s).2.2.attempted = s.attempted ++ w.knownHosts ∧
    ((start w s).1 = .ok () ↔ errs = []) ∧
    ((start w s).2.1 = true ↔ (start w s).1 = .ok ()) ∧
    (errs = [] ↔ allRenewOk w w.knownHosts s) := by
  have hok0 : (renewCertificatesAux w w.knownHosts s).1 = Outcome.ok errs := hok
  have hiff := renewCertificatesAux_ok_iff w w.knownHosts s errs hok0
  have hattA := renewCertificatesAux_attempted w w.knownHosts s errs hok0
  rw [start]
  rcases hC : renewCertificates w s with ⟨rc, s1⟩
  have hC0 : renewCertificatesAux w w.knownHosts s = (rc, s1) := hC
  rw [hC0] at hok0 hattA
  have hrc : rc = Outcome.ok errs := hok0
  subst hrc
  have hatt : s1.attempted = s.attempted ++ w.knownHosts := hattA
  by_cases he : errs = []
  · subst he
    refine ⟨?_, ?_, ?_, ?_⟩
    · exact hatt
    · simp
    · simp
    · exact hiff
  · refine ⟨?_, ?_, ?_, ?_⟩
    · simp only [if_neg he]
      exact hatt
    · simp [he]
    · simp [he]
    · exact hiff

/-- Witness for C7: one known host, empty cache, a cooperative ACME
client; `Start` succeeds, records the attempt, and launches the
background task. -/
theorem start_spec_witness :
    (start wRenew emptyMState).2.2.attempted =
      emptyMState.attempted ++ wRenew.knownHosts ∧
    ((start wRenew emptyMState).1 = .ok () ↔ ([] : List CacheErr) = []) ∧
    ((start wRenew emptyMState).2.1 = true ↔
      (start wRenew emptyMState).1 = .ok ()) ∧
    (([] : List CacheErr) = [] ↔ allRenewOk wRenew wRenew.knownHosts emptyMState) :=
  start_spec wRenew emptyMState [] (by decide)
